import Mathlib

/-!
Verification of the changelog manager (`src/changelog.py`).

The Python module is a single-process data-transformation tool: a pending-change
store (`unreleased.json`), a release engine, a text renderer for `CHANGELOG.md`
and a configuration store.  We embed its data model and operations shallowly:
Python dicts become structures, the six-category `changes` mapping becomes a
structure of `Option (List Entry)` fields (`none` models an absent key),
fallible operations return `Option` or a `Bool × _` pair mirroring the
`True`/`False` results of the Python methods, and every call to
`datetime.now()` becomes an explicit timestamp parameter.
-/

namespace Chlog

/-- The six fixed change categories: the keys of `ChangelogManager.change_types`
(`src/changelog.py` lines 116-123), in their fixed dict insertion order. -/
inductive Category : Type
  | added | changed | deprecated | removed | fixed | security
deriving DecidableEq

/-- The fixed enum order in which every loop of the source iterates categories
(`self.change_types.keys()`). -/
def categoryOrder : List Category :=
  [.added, .changed, .deprecated, .removed, .fixed, .security]

/-- The markdown headers stored as the values of `change_types` (lines 116-123). -/
def categoryHeader : Category → String
  | .added => "### Added"
  | .changed => "### Changed"
  | .deprecated => "### Deprecated"
  | .removed => "### Removed"
  | .fixed => "### Fixed"
  | .security => "### Security"

/-- One pending change entry, as the dict built in `ChangelogManager.add`
(lines 229-235). -/
structure Entry where
  id : String
  description : String
  timestamp : String
  author : Option String
  status : String
deriving DecidableEq

/-- The `changes` mapping of the unreleased document.  Each field is `some l`
when the category key is present (mapped to the entry list `l`) and `none` when
the key is absent — `remove` deletes keys whose list becomes empty (line 598). -/
structure Changes where
  added : Option (List Entry)
  changed : Option (List Entry)
  deprecated : Option (List Entry)
  removed : Option (List Entry)
  fixed : Option (List Entry)
  security : Option (List Entry)
deriving DecidableEq

/-- Key lookup in the `changes` dict: `data['changes'].get(c)`. -/
def getCat (ch : Changes) : Category → Option (List Entry)
  | .added => ch.added
  | .changed => ch.changed
  | .deprecated => ch.deprecated
  | .removed => ch.removed
  | .fixed => ch.fixed
  | .security => ch.security

/-- Key update in the `changes` dict (`v = none` models `del`). -/
def setCat (ch : Changes) (c : Category) (v : Option (List Entry)) : Changes :=
  match c with
  | .added => { ch with added := v }
  | .changed => { ch with changed := v }
  | .deprecated => { ch with deprecated := v }
  | .removed => { ch with removed := v }
  | .fixed => { ch with fixed := v }
  | .security => { ch with security := v }

/-- `data['changes'].get(c, [])` (lines 300, 473, 518, 540). -/
def getListD (ch : Changes) (c : Category) : List Entry :=
  (getCat ch c).getD []

/-- `sum(len(changes) for changes in data['changes'].values())` — the recomputation
of `metadata.total_changes` (lines 245-247 and 601-603).  Absent keys contribute
nothing, so summing `getListD` over the six categories is the same sum. -/
def sumLens (ch : Changes) : Nat :=
  (categoryOrder.map (fun c => (getListD ch c).length)).sum

/-- One instant as kept by Python's `datetime` (microsecond resolution): the
argument of every `datetime.now()` call that feeds `strftime`. -/
structure PyDateTime where
  year : Nat
  month : Nat
  day : Nat
  hour : Nat
  minute : Nat
  second : Nat
  usec : Nat
deriving DecidableEq

/-- Two-digit zero-padded decimal field of `strftime` (`%m %d %H %M %S`),
faithful for values below 100. -/
def pad2 (n : Nat) : List Char :=
  [Nat.digitChar (n / 10), Nat.digitChar (n % 10)]

/-- Three-digit zero-padded decimal field, faithful for values below 1000. -/
def pad3 (n : Nat) : List Char :=
  [Nat.digitChar (n / 100), Nat.digitChar (n / 10 % 10), Nat.digitChar (n % 10)]

/-- Four-digit zero-padded decimal field of `strftime` (`%Y`), faithful for
values below 10000. -/
def pad4 (n : Nat) : List Char :=
  [Nat.digitChar (n / 1000), Nat.digitChar (n / 100 % 10), Nat.digitChar (n / 10 % 10),
   Nat.digitChar (n % 10)]

/-- `ChangelogManager._generate_id` (lines 258-261):
`datetime.now().strftime("%Y%m%d%H%M%S%f")[:-3]` drops the last three of the six
`%f` microsecond digits, so the id carries the fields down to the millisecond
(`usec / 1000`), wrapped as `f"chg_{timestamp}"`. -/
def generateId (t : PyDateTime) : String :=
  ⟨"chg_".data ++ pad4 t.year ++ pad2 t.month ++ pad2 t.day ++ pad2 t.hour ++
    pad2 t.minute ++ pad2 t.second ++ pad3 (t.usec / 1000)⟩

/-- The unreleased document (`unreleased.json`), lines 168-183. -/
structure PendingDoc where
  project : String
  created : String
  last_modified : String
  changes : Changes
  total_changes : Nat
deriving DecidableEq

/-- The `changes` value written by `_init_unreleased_json` (lines 172-179):
all six keys present, each mapped to an empty list. -/
def initialChanges : Changes :=
  ⟨some [], some [], some [], some [], some [], some []⟩

/-- `ChangelogManager._init_unreleased_json` (lines 166-185): the empty initial
document.  Each `datetime.now().isoformat()` of the reset (lines 170, 171 and the
`last_modified` overwrite in `_save_unreleased_json`, line 202) is modelled by
the `nowIso` parameter. -/
def initUnreleased (projectName : String) (nowIso : String) : PendingDoc :=
  { project := projectName
    created := nowIso
    last_modified := nowIso
    changes := initialChanges
    total_changes := 0 }

/-- `ChangelogManager.add` (lines 207-256) after the category has passed the
`change_types` membership test (our `Category` type only contains valid
categories): build the entry, append it to the category's list — creating the
key when absent (lines 238-242) — recompute `total_changes` and stamp
`last_modified` (the save on line 250). -/
def addOp (doc : PendingDoc) (c : Category) (description : String)
    (author : Option String) (t : PyDateTime) (nowIso : String) : PendingDoc :=
  let e : Entry :=
    { id := generateId t
      description := description
      timestamp := nowIso
      author := author
      status := "pending" }
  let newList : Option (List Entry) :=
    match getCat doc.changes c with
    | some l => some (l ++ [e])
    | none => some [e]
  let ch := setCat doc.changes c newList
  { doc with changes := ch, total_changes := sumLens ch, last_modified := nowIso }

/-- Leading test of `pattern.lower() in description.lower()`: is `pat` an
initial piece of `l`? -/
def leadsList (pat l : List Char) : Bool :=
  match pat, l with
  | [], _ => true
  | _ :: _, [] => false
  | p :: ps, c :: cs => p == c && leadsList ps cs

/-- Contiguous-substring test on character lists (Python's `in` on strings). -/
def containsSub (l pat : List Char) : Bool :=
  match l with
  | [] => pat.isEmpty
  | _ :: cs => leadsList pat l || containsSub cs pat

/-- `pattern.lower() in change['description'].lower()` (line 523). -/
def lowerContains (hay pat : String) : Bool :=
  containsSub (hay.data.map Char.toLower) (pat.data.map Char.toLower)

/-- Sum of the list lengths of the categories strictly before `c` in the given
iteration order: the value accumulated into `global_idx` before the inner loop
of `remove` reaches `c` (lines 530-540). -/
def offsetOver (ch : Changes) (c : Category) : List Category → Nat
  | [] => 0
  | ct :: rest => if ct = c then 0 else (getListD ch ct).length + offsetOver ch c rest

/-- `global_idx - 1` at the moment the inner loop of `remove` breaks at
category `c`. -/
def offsetBefore (ch : Changes) (c : Category) : Nat :=
  offsetOver ch c categoryOrder

/-- The `match` flag computed by `remove` for the entry at local position `i`
of category `c` (lines 520-542).  The pattern filter is a case-insensitive
substring test (line 523).  The index filter is the code's test as written: the
inner loop breaks at `c` keeping `match` only when `i == index - 1`, and then
the trailing check demands `global_idx == index` where `global_idx` is `1 +`
the total length of the categories before `c` — so both must hold. -/
def entryMatches (ch : Changes) (pat? : Option String) (idx? : Option Nat)
    (c : Category) (i : Nat) (e : Entry) : Bool :=
  (match pat? with
   | none => true
   | some p => lowerContains e.description p) &&
  (match idx? with
   | none => true
   | some idx => (i + 1 == idx) && (offsetBefore ch c + 1 == idx))

/-- One element of the `changes_to_remove` list (lines 545-549). -/
structure Candidate where
  ctype : Category
  index : Nat
  change : Entry
deriving DecidableEq

/-- The `for i, change in enumerate(changes)` loop of `remove` for one
category: collect the matching entries with their local indices, counting from
`i`. -/
def scanCands (ch : Changes) (pat? : Option String) (idx? : Option Nat)
    (c : Category) : Nat → List Entry → List Candidate
  | _, [] => []
  | i, e :: es =>
      (if entryMatches ch pat? idx? c i e then [⟨c, i, e⟩] else []) ++
        scanCands ch pat? idx? c (i + 1) es

/-- The candidates contributed by category `c`: skipped entirely when a type
filter is given and differs (line 515), otherwise a scan of
`data['changes'].get(c, [])` (line 518). -/
def catCandidates (ch : Changes) (ct? : Option Category) (pat? : Option String)
    (idx? : Option Nat) (c : Category) : List Candidate :=
  match ct? with
  | some t => if c = t then scanCands ch pat? idx? c 0 (getListD ch c) else []
  | none => scanCands ch pat? idx? c 0 (getListD ch c)

/-- The outer `for ctype in self.change_types.keys()` loop of `remove`. -/
def candsOver (ch : Changes) (ct? : Option Category) (pat? : Option String)
    (idx? : Option Nat) : List Category → List Candidate
  | [] => []
  | c :: cs => catCandidates ch ct? pat? idx? c ++ candsOver ch ct? pat? idx? cs

/-- The full `changes_to_remove` list of `remove` (lines 511-549). -/
def candidatesFor (ch : Changes) (ct? : Option Category) (pat? : Option String)
    (idx? : Option Nat) : List Candidate :=
  candsOver ch ct? pat? idx? categoryOrder

/-- The interactive input consumed by `remove` (lines 561-589): `yes` is the
answer `"y"` to the single-candidate confirmation, `all` is choice `"1"` at the
multi-candidate menu, `pick ns` is choice `"2"` followed by the listed 1-based
numbers, and `abort` is any other input. -/
inductive RemoveDecision : Type
  | yes
  | all
  | pick (ns : List Nat)
  | abort
deriving DecidableEq

/-- The `indices_to_remove` selection of `remove` (lines 561-589): `none` when
the operation is aborted.  With exactly one candidate only the answer `"y"`
proceeds, with `[0]`.  With several, `"1"` selects every candidate, `"2"` keeps
the listed numbers that satisfy `1 <= n <= len(changes_to_remove)` shifted to
0-based (duplicates are not filtered, just as in the source), aborting when
nothing valid remains; any other answer aborts. -/
def chooseIndices (decision : RemoveDecision) (n : Nat) : Option (List Nat) :=
  if n == 1 then
    match decision with
    | .yes => some [0]
    | _ => none
  else
    match decision with
    | .all => some (List.range n)
    | .pick ns =>
        let sel := ns.filterMap (fun k => if 1 ≤ k ∧ k ≤ n then some (k - 1) else none)
        if sel.isEmpty then none else some sel
    | _ => none

/-- `data['changes'][c].pop(i)` followed by the empty-section pruning
(lines 594-598), on the category's optional list. -/
def popList (o : Option (List Entry)) (i : Nat) : Option (List Entry) :=
  let l := (o.getD []).eraseIdx i
  if l.isEmpty then none else some l

/-- One iteration of the deletion loop of `remove` for a candidate of category
`c` at local index `i` (lines 592-598). -/
def popAndPrune (ch : Changes) (c : Category) (i : Nat) : Changes :=
  setCat ch c (popList (getCat ch c) i)

/-- `sorted(indices_to_remove, reverse=True)` (line 592). -/
def sortDescNat (l : List Nat) : List Nat :=
  l.insertionSort (· ≥ ·)

/-- The deletion loop body over an already-sorted position list: each position
`p` indexes into `changes_to_remove` (line 593).  An out-of-range position —
which cannot arise from `chooseIndices` — is a no-op here, where Python would
raise. -/
def applySorted (cands : List Candidate) : Changes → List Nat → Changes
  | ch, [] => ch
  | ch, p :: ps =>
      match cands.get? p with
      | some cand => applySorted cands (popAndPrune ch cand.ctype cand.index) ps
      | none => applySorted cands ch ps

/-- The full deletion phase of `remove` (lines 591-598). -/
def applyRemovals (ch : Changes) (idxs : List Nat) (cands : List Candidate) : Changes :=
  applySorted cands ch (sortDescNat idxs)

/-- `ChangelogManager.remove` (lines 494-609): compute the candidates, abort
with `False` when none match or when the confirmation declines, otherwise
delete the selected candidates, recompute `total_changes` and stamp
`last_modified` (the save on line 606). -/
def removeOp (doc : PendingDoc) (ct? : Option Category) (pat? : Option String)
    (idx? : Option Nat) (decision : RemoveDecision) (nowIso : String) :
    Bool × PendingDoc :=
  let cands := candidatesFor doc.changes ct? pat? idx?
  if cands.isEmpty then (false, doc)
  else
    match chooseIndices decision cands.length with
    | none => (false, doc)
    | some idxs =>
        let ch := applyRemovals doc.changes idxs cands
        (true, { doc with changes := ch, total_changes := sumLens ch, last_modified := nowIso })

/-- `version.startswith('v')` (line 346), on the explicit character list. -/
def startsWithV (s : String) : Bool :=
  match s.data with
  | c :: _ => c == 'v'
  | [] => false

/-- The release dict written to `release_<version>.json` (lines 363-372). -/
structure ReleaseRecord where
  version : String
  date : String
  timestamp : String
  release_notes : String
  changes : Changes
  total_changes : Nat
deriving DecidableEq

/-- The `- description (author)` line of a release block (lines 416-418); an
author that is `None` or the empty string is omitted (`if change.get('author')`). -/
def entryLine (e : Entry) : String :=
  "- " ++ e.description ++
    (match e.author with
     | some a => if a == "" then "" else " (" ++ a ++ ")"
     | none => "")

/-- One `### Category` sub-section of a release block (lines 414-419). -/
def catBlock (c : Category) (l : List Entry) : String :=
  "\n" ++ categoryHeader c ++ "\n" ++ String.join (l.map (fun e => entryLine e ++ "\n"))

/-- The category sub-sections of a release block, in fixed enum order; a
category appears only when its key is present with a non-empty list
(`if change_type in changes and changes[change_type]`, line 413). -/
def changesBlocks (ch : Changes) : List Category → String
  | [] => ""
  | c :: cs =>
      (match getCat ch c with
       | some l => if l.isEmpty then "" else catBlock c l
       | none => "") ++ changesBlocks ch cs

/-- The `release_block` string of `_update_changelog_md` (lines 404-419):
heading with the display version and date, optional notes paragraph, category
sub-sections. -/
def mkReleaseBlock (version notes : String) (ch : Changes) (today : String) : String :=
  "\n## [" ++ version ++ "] - " ++ today ++ "\n" ++
    (if notes == "" then "" else "\n" ++ notes ++ "\n") ++
    changesBlocks ch categoryOrder

/-- Python `str.strip()`: drop whitespace from both ends. -/
def pyStrip (s : String) : String :=
  ⟨((s.data.dropWhile Char.isWhitespace).reverse.dropWhile Char.isWhitespace).reverse⟩

/-- The marker heading the insertion loop compares against (line 428). -/
def unreleasedMarker : String :=
  "## [Unreleased]"

/-- The line loop of `_update_changelog_md` (lines 422-441) on the document's
line list: every line is kept; after the first line whose stripped form equals
`## [Unreleased]` the release block is appended once (the inner `while` on
lines 431-433 computes an unused local and has no effect); when no line
matches, the block is appended at the end (lines 440-441). -/
def insertAfterUnreleased (block : String) : List String → List String
  | [] => [block]
  | l :: rest =>
      if pyStrip l == unreleasedMarker then l :: block :: rest
      else l :: insertAfterUnreleased block rest

/-- `_update_changelog_md` on the split line list (lines 396-444). -/
def updateChangelogLines (lines : List String) (version notes : String)
    (ch : Changes) (today : String) : List String :=
  insertAfterUnreleased (mkReleaseBlock version notes ch today) lines

/-- The three persistent artifacts touched by `release`: the pending store,
the changelog document (as its line list) and the release-record directory
(filename/record pairs, newest first). -/
structure SysState where
  projectName : String
  pending : PendingDoc
  changelogLines : List String
  releases : List (String × ReleaseRecord)
deriving DecidableEq

/-- `ChangelogManager.release` (lines 333-394): reject a release when
`total_changes` is zero touching nothing; otherwise snapshot the pending
changes into a release record written under the `v`-stripped filename, splice
the rendered block into the changelog, and reset the pending store.  The git
tag step (lines 386-387) only shells out and never alters these artifacts, so
it has no effect here. -/
def release (s : SysState) (version notes : String) (today nowIso : String) :
    Bool × SysState :=
  let versionClean := if startsWithV version then (⟨version.data.drop 1⟩ : String) else version
  if s.pending.total_changes == 0 then (false, s)
  else
    let releaseRec : ReleaseRecord :=
      { version := version
        date := today
        timestamp := nowIso
        release_notes := notes
        changes := s.pending.changes
        total_changes := s.pending.total_changes }
    let fileName := "release_" ++ versionClean ++ ".json"
    let newLines := updateChangelogLines s.changelogLines version notes s.pending.changes today
    (true,
      { s with
        pending := initUnreleased s.projectName nowIso
        changelogLines := newLines
        releases := (fileName, releaseRec) :: s.releases })

/-- One mutation of the pending store, for the count-invariant claim: an `add`
or a `remove` command (the only operations that mutate the document besides the
release reset). -/
inductive Op : Type
  | addChange (c : Category) (description : String) (author : Option String)
      (t : PyDateTime) (nowIso : String)
  | removeChanges (ct? : Option Category) (pat? : Option String) (idx? : Option Nat)
      (d : RemoveDecision) (nowIso : String)

/-- Run one operation against the pending document. -/
def applyOp (doc : PendingDoc) : Op → PendingDoc
  | .addChange c d a t n => addOp doc c d a t n
  | .removeChanges ct p i dec n => (removeOp doc ct p i dec n).2

/-- A JSON scalar as stored in the `settings` section after the coercion of
`config_update` (lines 653-656). -/
inductive ConfigValue : Type
  | str (s : String)
  | boolVal (b : Bool)
  | intVal (n : Nat)
deriving DecidableEq

/-- The configuration record (`config.json`): the `project` section can carry
arbitrary string fields, `paths` and `settings` are fixed-key sections. -/
structure Config where
  project : List (String × String)
  paths : List (String × String)
  settings : List (String × ConfigValue)
deriving DecidableEq

/-- Dict update on an association list: overwrite in place, or append a new
key at the end. -/
def setAssoc {α : Type} : List (String × α) → String → α → List (String × α)
  | [], k, v => [(k, v)]
  | (k', v') :: rest, k, v =>
      if k' == k then (k, v) :: rest else (k', v') :: setAssoc rest k v

/-- Dict lookup on an association list. -/
def lookupAssoc {α : Type} : List (String × α) → String → Option α
  | [], _ => none
  | (k', v') :: rest, k => if k' == k then some v' else lookupAssoc rest k

/-- `ChangelogConfig.update_path` (lines 89-95): mutate only a key already in
the `paths` section, `none` models the `ValueError` for an unknown key. -/
def updatePath (cfg : Config) (key value : String) : Option Config :=
  if (lookupAssoc cfg.paths key).isSome then
    some { cfg with paths := setAssoc cfg.paths key value }
  else none

/-- Python `str.isdigit()` for ASCII text: non-empty and all digits. -/
def isAllDigits (s : String) : Bool :=
  !s.data.isEmpty && s.data.all Char.isDigit

/-- `int(value)` on an all-digit string. -/
def digitsToNat (s : String) : Nat :=
  s.data.foldl (fun n c => n * 10 + (c.toNat - 48)) 0

/-- The value coercion of the `settings` branch of `config_update`
(lines 653-656): `true`/`false` (case-insensitive) become booleans, all-digit
strings become integers, anything else stays a string. -/
def coerceSettingValue (value : String) : ConfigValue :=
  let lower : String := ⟨value.data.map Char.toLower⟩
  if lower == "true" || lower == "false" then .boolVal (lower == "true")
  else if isAllDigits value then .intVal (digitsToNat value)
  else .str value

/-- `ChangelogConfig.update_setting` (lines 97-103): mutate only a key already
in the `settings` section, `none` models the `ValueError`. -/
def updateSetting (cfg : Config) (key value : String) : Option Config :=
  if (lookupAssoc cfg.settings key).isSome then
    some { cfg with settings := setAssoc cfg.settings key (coerceSettingValue value) }
  else none

/-- `key.split('.', 1)` when the key contains a dot: the characters before the
first `.` and everything after it. -/
def splitAtFirstDot : List Char → Option (List Char × List Char)
  | [] => none
  | ch :: rest =>
      if ch == '.' then some ([], rest)
      else
        match splitAtFirstDot rest with
        | some (a, b) => some (ch :: a, b)
        | none => none

/-- The key parsing of `config_update` (lines 637-641): `section.subkey` when a
dot is present. -/
def splitFirstDot (s : String) : Option (String × String) :=
  match splitAtFirstDot s.data with
  | some (a, b) => some (⟨a⟩, ⟨b⟩)
  | none => none

/-- `ChangelogManager.config_update` (lines 627-668): a dotless key addresses
the `project` section; `paths` and `settings` validate the subkey (a failed
validation raises, is caught, and reports `False` with no mutation); the
remaining present section — `project` — stores the raw string under any subkey
without validation; an unknown section reports `False`. -/
def configUpdate (cfg : Config) (key value : String) : Bool × Config :=
  let p : String × String :=
    match splitFirstDot key with
    | some q => q
    | none => ("project", key)
  if p.1 == "project" then
    (true, { cfg with project := setAssoc cfg.project p.2 value })
  else if p.1 == "paths" then
    match updatePath cfg p.2 value with
    | some c => (true, c)
    | none => (false, cfg)
  else if p.1 == "settings" then
    match updateSetting cfg p.2 value with
    | some c => (true, c)
    | none => (false, cfg)
  else (false, cfg)

/-- Selection written the way the specification describes it: keep the elements
of the list whose position (counting from `k`) is not selected, removing exactly
the selected positions and no others. -/
def keepNonSelected {α : Type} (sel : List Nat) : Nat → List α → List α
  | _, [] => []
  | k, a :: as =>
      if k ∈ sel then keepNonSelected sel (k + 1) as
      else a :: keepNonSelected sel (k + 1) as

/-- The local indices deleted from category `c` by the deletion loop, in loop
order: positions `idxs` into the candidate list, restricted to `c`. -/
def localSelection (cands : List Candidate) (idxs : List Nat) (c : Category) : List Nat :=
  idxs.filterMap (fun p =>
    match cands.get? p with
    | some cand => if cand.ctype = c then some cand.index else none
    | none => none)

/-- Repeated `list.pop` at the given indices, in the given order. -/
def eraseIdxs {α : Type} (l : List α) (idxs : List Nat) : List α :=
  idxs.foldl List.eraseIdx l

/-- Ordering invariant of the candidate list: whenever two candidates share a
category, the earlier one carries the smaller local index. -/
def candR (x y : Candidate) : Prop :=
  x.ctype = y.ctype → x.index < y.index

/-- Concrete fixture entries matching the specification's global-index example:
descriptions `A`, `B` in `added` and `C` in `fixed`. -/
def entryA : Entry :=
  ⟨"chg_20240101000000000", "A", "2024-01-01T00:00:00", none, "pending"⟩

/-- Fixture entry `B`. -/
def entryB : Entry :=
  ⟨"chg_20240101000000001", "B", "2024-01-01T00:00:01", none, "pending"⟩

/-- Fixture entry `C`. -/
def entryC : Entry :=
  ⟨"chg_20240101000000002", "C", "2024-01-01T00:00:02", none, "pending"⟩

/-- Fixture `changes` mapping with `added = [A, B]` and `fixed = [C]` (the other
category keys present and empty, as after three `add` calls on a fresh store). -/
def chGlobal : Changes :=
  ⟨some [entryA, entryB], some [], some [], some [], some [entryC], some []⟩

/-- Fixture pending document holding `chGlobal`. -/
def docGlobal : PendingDoc :=
  ⟨"proj", "2024-01-01T00:00:00", "2024-01-01T00:00:02", chGlobal, 3⟩

/-- Fixture system state around `docGlobal`. -/
def stGlobal : SysState :=
  ⟨"proj", docGlobal, ["# Changelog - proj", "", "## [Unreleased]"], []⟩

/-- Fixture pending document with a single `fixed` entry. -/
def docSingleFixed : PendingDoc :=
  ⟨"proj", "2024-01-01T00:00:00", "2024-01-01T00:00:02",
    ⟨some [], some [], some [], some [], some [entryC], some []⟩, 1⟩

/-- The default configuration record of `ChangelogConfig.DEFAULT_CONFIG`
(lines 17-35), with the project name substituted as `create_default_config`
does. -/
def cfgDefault : Config :=
  ⟨[("name", "proj"), ("version", "0.0.0"), ("author", ""), ("license", "MIT")],
   [("changelog", "CHANGELOG.md"), ("unreleased", ".changelog/unreleased.json"),
    ("releases", ".changelog/releases")],
   [("auto_backup", .boolVal true), ("date_format", .str "%Y-%m-%d"),
    ("time_format", .str "%H:%M:%S"), ("git_integration", .boolVal false)]⟩

/-! ### Lemmas: the changes mapping -/

theorem getCat_setCat (ch : Changes) (c c' : Category) (v : Option (List Entry)) :
    getCat (setCat ch c v) c' = if c' = c then v else getCat ch c' := by
  cases c <;> cases c' <;> simp [getCat, setCat]

/-! ### Lemmas: keepNonSelected -/

theorem keepNonSelected_of_lt {α : Type} (sel : List Nat) :
    ∀ (as : List α) (k : Nat), (∀ s ∈ sel, s < k) → keepNonSelected sel k as = as := by
  intro as
  induction as with
  | nil => intro k _; rfl
  | cons a as ih =>
      intro k h
      have hk : k ∉ sel := fun hm => lt_irrefl k (h k hm)
      simp only [keepNonSelected, if_neg hk]
      rw [ih (k + 1) (fun s hs => Nat.lt_succ_of_lt (h s hs))]

theorem keepNonSelected_nil_sel {α : Type} (as : List α) (k : Nat) :
    keepNonSelected [] k as = as :=
  keepNonSelected_of_lt [] as k (fun s hs => absurd hs (List.not_mem_nil s))

theorem keepNonSelected_append {α : Type} (sel : List Nat) :
    ∀ (xs ys : List α) (k : Nat),
      keepNonSelected sel k (xs ++ ys) =
        keepNonSelected sel k xs ++ keepNonSelected sel (k + xs.length) ys := by
  intro xs
  induction xs with
  | nil => intro ys k; simp [keepNonSelected]
  | cons a as ih =>
      intro ys k
      have harith : k + 1 + as.length = k + (a :: as).length := by
        simp [List.length_cons]; omega
      simp only [List.cons_append, keepNonSelected, List.append_eq]
      by_cases hk : k ∈ sel
      · rw [if_pos hk, if_pos hk, ih, harith]
      · rw [if_neg hk, if_neg hk, List.cons_append, ih, harith]

theorem keepNonSelected_cons_of_ge {α : Type} (sel : List Nat) (i : Nat) :
    ∀ (as : List α) (k : Nat), k + as.length ≤ i →
      keepNonSelected (i :: sel) k as = keepNonSelected sel k as := by
  intro as
  induction as with
  | nil => intro k _; rfl
  | cons a as ih =>
      intro k h
      rw [List.length_cons] at h
      have hki : k ≠ i := by omega
      have hrec := ih (k + 1) (by omega)
      simp only [keepNonSelected]
      by_cases hk : k ∈ sel
      · rw [if_pos (List.mem_cons_of_mem _ hk), if_pos hk, hrec]
      · have hno : k ∉ i :: sel := by simp [hki, hk]
        rw [if_neg hno, if_neg hk, hrec]

theorem keepNonSelected_congr {α : Type} (sel sel' : List Nat)
    (h : ∀ x, x ∈ sel ↔ x ∈ sel') :
    ∀ (as : List α) (k : Nat), keepNonSelected sel k as = keepNonSelected sel' k as := by
  intro as
  induction as with
  | nil => intro k; rfl
  | cons a as ih =>
      intro k
      simp only [keepNonSelected]
      by_cases hk : k ∈ sel
      · rw [if_pos hk, if_pos ((h k).mp hk), ih]
      · rw [if_neg hk, if_neg (fun hx => hk ((h k).mpr hx)), ih]

/-! ### Lemmas: descending-order erasure removes exactly the selected positions -/

theorem eraseIdxs_nil {α : Type} (l : List α) : eraseIdxs l [] = l := rfl

theorem eraseIdxs_cons {α : Type} (l : List α) (i : Nat) (rest : List Nat) :
    eraseIdxs l (i :: rest) = eraseIdxs (l.eraseIdx i) rest := rfl

theorem eraseIdxs_eq_keepNonSelected {α : Type} :
    ∀ (idxs : List Nat) (l : List α), idxs.Pairwise (· > ·) →
      (∀ i ∈ idxs, i < l.length) → eraseIdxs l idxs = keepNonSelected idxs 0 l := by
  intro idxs
  induction idxs with
  | nil => intro l _ _; rw [eraseIdxs_nil, keepNonSelected_nil_sel]
  | cons i rest ih =>
      intro l hp hb
      have hi : i < l.length := hb i (List.mem_cons_self i rest)
      have hrest_lt : ∀ j ∈ rest, j < i := fun j hj => (List.pairwise_cons.mp hp).1 j hj
      have hp' : rest.Pairwise (· > ·) := (List.pairwise_cons.mp hp).2
      have htake : (l.take i).length = i := by
        rw [List.length_take]; omega
      have hlen : (l.eraseIdx i).length = l.length - 1 := by
        rw [List.length_eraseIdx]; simp [hi]
      rw [eraseIdxs_cons, ih (l.eraseIdx i) hp' (fun j hj => by
        rw [hlen]; have := hrest_lt j hj; omega)]
      rw [List.eraseIdx_eq_take_drop_succ, keepNonSelected_append, htake, Nat.zero_add,
        keepNonSelected_of_lt rest (l.drop (i + 1)) i hrest_lt]
      conv_rhs => rw [← List.take_append_drop i l, List.drop_eq_getElem_cons hi]
      rw [keepNonSelected_append, htake, Nat.zero_add,
        keepNonSelected_cons_of_ge rest i (l.take i) 0 (by rw [htake]; omega)]
      simp only [keepNonSelected, if_pos (List.mem_cons_self i rest)]
      rw [keepNonSelected_of_lt (i :: rest) (l.drop (i + 1)) (i + 1)
        (fun s hs => by rcases List.mem_cons.mp hs with h | h
                        · omega
                        · have := hrest_lt s h; omega)]

/-! ### Lemmas: sorting in reverse -/

theorem sortDescNat_perm (l : List Nat) : List.Perm (sortDescNat l) l :=
  List.perm_insertionSort _ l

theorem sortDescNat_mem (l : List Nat) (x : Nat) : x ∈ sortDescNat l ↔ x ∈ l :=
  (sortDescNat_perm l).mem_iff

theorem sortDescNat_pairwise_gt (l : List Nat) (h : l.Nodup) :
    (sortDescNat l).Pairwise (· > ·) := by
  have hs : (sortDescNat l).Pairwise (· ≥ ·) := List.sorted_insertionSort _ l
  have hn : (sortDescNat l).Pairwise (· ≠ ·) := (sortDescNat_perm l).symm.nodup h
  exact (hs.and hn).imp fun hab => lt_of_le_of_ne hab.1 (Ne.symm hab.2)

/-! ### Lemmas: the deletion loop acts on each category independently -/

theorem getD_popList (o : Option (List Entry)) (i : Nat) :
    (popList o i).getD [] = (o.getD []).eraseIdx i := by
  simp only [popList]
  split
  · next h => simp [List.isEmpty_iff.mp h]
  · rfl

theorem getCat_popAndPrune (ch : Changes) (c c' : Category) (i : Nat) :
    getCat (popAndPrune ch c i) c' =
      if c' = c then popList (getCat ch c) i else getCat ch c' := by
  simp [popAndPrune, getCat_setCat]

theorem getCat_applySorted (cands : List Candidate) :
    ∀ (ds : List Nat) (ch : Changes) (c : Category),
      getCat (applySorted cands ch ds) c =
        (localSelection cands ds c).foldl popList (getCat ch c) := by
  intro ds
  induction ds with
  | nil => intro ch c; rfl
  | cons p ps ih =>
      intro ch c
      cases hp : cands.get? p with
      | none =>
          simp only [applySorted, hp, localSelection, List.filterMap_cons]
          exact ih ch c
      | some cand =>
          simp only [applySorted, hp, localSelection, List.filterMap_cons]
          by_cases hc : cand.ctype = c
          · subst hc
            simp only [if_pos rfl, List.foldl_cons]
            rw [ih (popAndPrune ch cand.ctype cand.index) cand.ctype,
              getCat_popAndPrune, if_pos rfl]
            rfl
          · simp only [if_neg hc]
            rw [ih (popAndPrune ch cand.ctype cand.index) c,
              getCat_popAndPrune, if_neg (fun h => hc h.symm)]
            rfl

theorem getD_foldl_popList :
    ∀ (ls : List Nat) (o : Option (List Entry)),
      (ls.foldl popList o).getD [] = eraseIdxs (o.getD []) ls := by
  intro ls
  induction ls with
  | nil => intro o; rfl
  | cons i rest ih =>
      intro o
      rw [List.foldl_cons, ih, eraseIdxs_cons, getD_popList]

theorem foldl_popList_ne_nil :
    ∀ (ls : List Nat) (o : Option (List Entry)), ls ≠ [] →
      ls.foldl popList o =
        if (eraseIdxs (o.getD []) ls).isEmpty then none
        else some (eraseIdxs (o.getD []) ls) := by
  intro ls
  induction ls with
  | nil => intro o h; exact absurd rfl h
  | cons i rest ih =>
      intro o _
      cases rest with
      | nil =>
          simp only [List.foldl_cons, List.foldl_nil, eraseIdxs_cons, eraseIdxs_nil]
          rfl
      | cons j rest' =>
          rw [List.foldl_cons, ih (popList o i) (by simp), getD_popList]
          simp only [eraseIdxs_cons]

/-! ### Lemmas: shape of the candidate list -/

theorem scanCands_mem (ch : Changes) (pat? : Option String) (idx? : Option Nat) (c : Category) :
    ∀ (l : List Entry) (k : Nat) (cand : Candidate),
      cand ∈ scanCands ch pat? idx? c k l →
        cand.ctype = c ∧ k ≤ cand.index ∧ cand.index < k + l.length ∧
          l.get? (cand.index - k) = some cand.change := by
  intro l
  induction l with
  | nil => intro k cand h; exact absurd h (List.not_mem_nil _)
  | cons e es ih =>
      intro k cand h
      simp only [scanCands] at h
      rcases List.mem_append.mp h with h1 | h2
      · by_cases hm : entryMatches ch pat? idx? c k e = true
        · rw [if_pos hm] at h1
          have := List.mem_singleton.mp h1
          subst this
          refine ⟨rfl, Nat.le_refl k, ?_, ?_⟩
          · simp only [List.length_cons]; omega
          · simp
        · rw [if_neg hm] at h1
          exact absurd h1 (List.not_mem_nil _)
      · obtain ⟨h1, h2', h3, h4⟩ := ih (k + 1) cand h2
        refine ⟨h1, by omega, by simp only [List.length_cons]; omega, ?_⟩
        have harith : cand.index - k = (cand.index - (k + 1)) + 1 := by omega
        rw [harith, List.get?_cons_succ]
        exact h4

theorem scanCands_pairwise (ch : Changes) (pat? : Option String) (idx? : Option Nat)
    (c : Category) :
    ∀ (l : List Entry) (k : Nat),
      (scanCands ch pat? idx? c k l).Pairwise (fun x y => x.index < y.index) := by
  intro l
  induction l with
  | nil => intro k; exact List.Pairwise.nil
  | cons e es ih =>
      intro k
      simp only [scanCands]
      apply List.pairwise_append.mpr
      refine ⟨?_, ih (k + 1), ?_⟩
      · split
        · exact List.pairwise_singleton _ _
        · exact List.Pairwise.nil
      · intro x hx y hy
        have hxk : x = ⟨c, k, e⟩ := by
          by_cases hm : entryMatches ch pat? idx? c k e = true
          · rw [if_pos hm] at hx
            exact List.mem_singleton.mp hx
          · rw [if_neg hm] at hx
            exact absurd hx (List.not_mem_nil _)
        have hy' := (scanCands_mem ch pat? idx? c es (k + 1) y hy).2.1
        have hxi : x.index = k := by rw [hxk]
        omega

theorem catCandidates_mem (ch : Changes) (ct? : Option Category) (pat? : Option String)
    (idx? : Option Nat) (c : Category) (cand : Candidate)
    (h : cand ∈ catCandidates ch ct? pat? idx? c) :
    cand.ctype = c ∧ cand.index < (getListD ch c).length ∧
      (getListD ch c).get? cand.index = some cand.change := by
  have hscan : cand ∈ scanCands ch pat? idx? c 0 (getListD ch c) := by
    cases ct? with
    | none => exact h
    | some t =>
        simp only [catCandidates] at h
        by_cases hc : c = t
        · rw [if_pos hc] at h; exact h
        · rw [if_neg hc] at h; exact absurd h (List.not_mem_nil _)
  obtain ⟨h1, _, h3, h4⟩ := scanCands_mem ch pat? idx? c (getListD ch c) 0 cand hscan
  exact ⟨h1, by omega, by simpa using h4⟩

theorem catCandidates_pairwise (ch : Changes) (ct? : Option Category) (pat? : Option String)
    (idx? : Option Nat) (c : Category) :
    (catCandidates ch ct? pat? idx? c).Pairwise (fun x y => x.index < y.index) := by
  cases ct? with
  | none => exact scanCands_pairwise ch pat? idx? c _ 0
  | some t =>
      simp only [catCandidates]
      split
      · exact scanCands_pairwise ch pat? idx? c _ 0
      · exact List.Pairwise.nil

theorem candsOver_mem (ch : Changes) (ct? : Option Category) (pat? : Option String)
    (idx? : Option Nat) :
    ∀ (cs : List Category) (cand : Candidate), cand ∈ candsOver ch ct? pat? idx? cs →
      cand.ctype ∈ cs ∧ cand.index < (getListD ch cand.ctype).length ∧
        (getListD ch cand.ctype).get? cand.index = some cand.change := by
  intro cs
  induction cs with
  | nil => intro cand h; exact absurd h (List.not_mem_nil _)
  | cons c cs ih =>
      intro cand h
      rcases List.mem_append.mp h with h1 | h2
      · obtain ⟨hc, hlen, hget⟩ := catCandidates_mem ch ct? pat? idx? c cand h1
        rw [hc]
        exact ⟨List.mem_cons_self _ _, hlen, hget⟩
      · obtain ⟨a, b, d⟩ := ih cand h2
        exact ⟨List.mem_cons_of_mem _ a, b, d⟩

theorem candsOver_pairwise (ch : Changes) (ct? : Option Category) (pat? : Option String)
    (idx? : Option Nat) :
    ∀ (cs : List Category), cs.Pairwise (· ≠ ·) →
      (candsOver ch ct? pat? idx? cs).Pairwise candR := by
  intro cs
  induction cs with
  | nil => intro _; exact List.Pairwise.nil
  | cons c cs ih =>
      intro hnd
      apply List.pairwise_append.mpr
      have hblock : (catCandidates ch ct? pat? idx? c).Pairwise candR :=
        (catCandidates_pairwise ch ct? pat? idx? c).imp (fun {x y} h => fun _ => h)
      refine ⟨hblock, ih (List.pairwise_cons.mp hnd).2, ?_⟩
      intro x hx y hy heq
      exfalso
      have hx' := (catCandidates_mem ch ct? pat? idx? c x hx).1
      have hy' := (candsOver_mem ch ct? pat? idx? cs y hy).1
      have hne := (List.pairwise_cons.mp hnd).1 y.ctype hy'
      rw [hx'] at heq
      exact hne heq

theorem candidatesFor_mem (ch : Changes) (ct? : Option Category) (pat? : Option String)
    (idx? : Option Nat) (cand : Candidate) (h : cand ∈ candidatesFor ch ct? pat? idx?) :
    cand.index < (getListD ch cand.ctype).length ∧
      (getListD ch cand.ctype).get? cand.index = some cand.change :=
  (candsOver_mem ch ct? pat? idx? categoryOrder cand h).2

theorem candidatesFor_pairwise (ch : Changes) (ct? : Option Category) (pat? : Option String)
    (idx? : Option Nat) : (candidatesFor ch ct? pat? idx?).Pairwise candR :=
  candsOver_pairwise ch ct? pat? idx? categoryOrder (by decide)

/-! ### Lemmas: the local selection of a category -/

theorem pairwise_filterMap_of {α β : Type} (f : α → Option β) {R : α → α → Prop}
    {S : β → β → Prop} (H : ∀ a b x y, R a b → f a = some x → f b = some y → S x y) :
    ∀ (l : List α), l.Pairwise R → (l.filterMap f).Pairwise S := by
  intro l
  induction l with
  | nil => intro _; exact List.Pairwise.nil
  | cons a l ih =>
      intro hp
      obtain ⟨h1, h2⟩ := List.pairwise_cons.mp hp
      cases hfa : f a with
      | none =>
          rw [List.filterMap_cons_none hfa]
          exact ih h2
      | some x =>
          rw [List.filterMap_cons_some hfa]
          apply List.pairwise_cons.mpr
          refine ⟨?_, ih h2⟩
          intro y hy
          obtain ⟨b, hb, hfb⟩ := List.mem_filterMap.mp hy
          exact H a b x y (h1 b hb) hfa hfb

theorem pairwise_get_of_pairwise {α : Type} {R : α → α → Prop} (l : List α)
    (h : l.Pairwise R) (p q : Nat) (x y : α) (hpq : p < q)
    (hp : l.get? p = some x) (hq : l.get? q = some y) : R x y := by
  obtain ⟨hp1, hp2⟩ := List.get?_eq_some.mp hp
  obtain ⟨hq1, hq2⟩ := List.get?_eq_some.mp hq
  rw [List.pairwise_iff_get] at h
  subst hp2 hq2
  exact h ⟨p, hp1⟩ ⟨q, hq1⟩ hpq

theorem localSelection_pairwise (cands : List Candidate) (ds : List Nat) (c : Category)
    (hds : ds.Pairwise (· > ·)) (hc : cands.Pairwise candR) :
    (localSelection cands ds c).Pairwise (· > ·) := by
  apply pairwise_filterMap_of _ ?_ ds hds
  intro p q x y hpq hfp hfq
  cases hgp : cands.get? p with
  | none =>
      rw [List.get?_eq_getElem?] at hgp
      simp [hgp] at hfp
  | some cp =>
      simp only [hgp] at hfp
      cases hgq : cands.get? q with
      | none =>
          rw [List.get?_eq_getElem?] at hgq
          simp [hgq] at hfq
      | some cq =>
          simp only [hgq] at hfq
          by_cases h1 : cp.ctype = c
          · rw [if_pos h1] at hfp
            by_cases h2 : cq.ctype = c
            · rw [if_pos h2] at hfq
              have hx : x = cp.index := (Option.some.inj hfp).symm
              have hy : y = cq.index := (Option.some.inj hfq).symm
              have hR : candR cq cp :=
                pairwise_get_of_pairwise cands hc q p cq cp hpq hgq hgp
              have := hR (by rw [h1, h2])
              omega
            · rw [if_neg h2] at hfq; cases hfq
          · rw [if_neg h1] at hfp; cases hfp

theorem localSelection_bounds (ch : Changes) (ct? : Option Category) (pat? : Option String)
    (idx? : Option Nat) (ds : List Nat) (c : Category) (j : Nat)
    (hj : j ∈ localSelection (candidatesFor ch ct? pat? idx?) ds c) :
    j < (getListD ch c).length := by
  obtain ⟨p, _, hfp⟩ := List.mem_filterMap.mp hj
  cases hgp : (candidatesFor ch ct? pat? idx?).get? p with
  | none =>
      rw [List.get?_eq_getElem?] at hgp
      simp [hgp] at hfp
  | some cand =>
      simp only [hgp] at hfp
      by_cases h1 : cand.ctype = c
      · rw [if_pos h1] at hfp
        have hji : j = cand.index := (Option.some.inj hfp).symm
        have hmem : cand ∈ candidatesFor ch ct? pat? idx? := List.get?_mem hgp
        have hb := (candidatesFor_mem ch ct? pat? idx? cand hmem).1
        rw [h1] at hb
        omega
      · rw [if_neg h1] at hfp; cases hfp

theorem localSelection_perm (cands : List Candidate) (ds ds' : List Nat) (c : Category)
    (h : List.Perm ds ds') :
    List.Perm (localSelection cands ds c) (localSelection cands ds' c) :=
  h.filterMap _

/-! ### Lemmas: the selection produced by the interactive choices -/

theorem chooseIndices_bounds (d : RemoveDecision) (n : Nat) (idxs : List Nat)
    (h : chooseIndices d n = some idxs) : ∀ p ∈ idxs, p < n := by
  intro p hp
  by_cases hn : (n == 1) = true
  · have hn1 : n = 1 := by simpa using hn
    cases d with
    | yes =>
        simp only [chooseIndices, if_pos hn] at h
        have : [0] = idxs := Option.some.inj h
        rw [← this] at hp
        have := List.mem_singleton.mp hp
        omega
    | all => simp [chooseIndices, hn] at h
    | pick ns => simp [chooseIndices, hn] at h
    | abort => simp [chooseIndices, hn] at h
  · cases d with
    | yes => simp [chooseIndices, hn] at h
    | abort => simp [chooseIndices, hn] at h
    | all =>
        simp only [chooseIndices, if_neg hn] at h
        have : List.range n = idxs := Option.some.inj h
        rw [← this] at hp
        exact List.mem_range.mp hp
    | pick ns =>
        simp only [chooseIndices, if_neg hn] at h
        split at h
        · cases h
        · have := Option.some.inj h
          rw [← this] at hp
          obtain ⟨k, _, hxk⟩ := List.mem_filterMap.mp hp
          by_cases hkb : 1 ≤ k ∧ k ≤ n
          · rw [if_pos hkb] at hxk
            have := Option.some.inj hxk
            omega
          · rw [if_neg hkb] at hxk; cases hxk

theorem chooseIndices_zero (d : RemoveDecision) (idxs : List Nat)
    (h : chooseIndices d 0 = some idxs) : idxs = [] := by
  have hb := chooseIndices_bounds d 0 idxs h
  cases idxs with
  | nil => rfl
  | cons a l => exact absurd (hb a (List.mem_cons_self a l)) (by omega)

/-! ### Lemmas: the branches of removeOp -/

theorem removeOp_no_candidates (doc : PendingDoc) (ct? : Option Category)
    (pat? : Option String) (idx? : Option Nat) (decision : RemoveDecision) (nowIso : String)
    (h : candidatesFor doc.changes ct? pat? idx? = []) :
    removeOp doc ct? pat? idx? decision nowIso = (false, doc) := by
  simp [removeOp, h]

theorem removeOp_abort (doc : PendingDoc) (ct? : Option Category) (pat? : Option String)
    (idx? : Option Nat) (decision : RemoveDecision) (nowIso : String)
    (hsel : chooseIndices decision (candidatesFor doc.changes ct? pat? idx?).length = none) :
    removeOp doc ct? pat? idx? decision nowIso = (false, doc) := by
  by_cases hc : candidatesFor doc.changes ct? pat? idx? = []
  · exact removeOp_no_candidates doc ct? pat? idx? decision nowIso hc
  · have h0 : (candidatesFor doc.changes ct? pat? idx?).isEmpty = false := by
      cases hx : candidatesFor doc.changes ct? pat? idx? with
      | nil => exact absurd hx hc
      | cons a l => rfl
    simp [removeOp, h0, hsel]

theorem removeOp_success (doc : PendingDoc) (ct? : Option Category) (pat? : Option String)
    (idx? : Option Nat) (decision : RemoveDecision) (nowIso : String) (idxs : List Nat)
    (hne : candidatesFor doc.changes ct? pat? idx? ≠ [])
    (hsel : chooseIndices decision (candidatesFor doc.changes ct? pat? idx?).length = some idxs) :
    removeOp doc ct? pat? idx? decision nowIso =
      (true,
        { doc with
          changes := applyRemovals doc.changes idxs (candidatesFor doc.changes ct? pat? idx?)
          total_changes :=
            sumLens (applyRemovals doc.changes idxs (candidatesFor doc.changes ct? pat? idx?))
          last_modified := nowIso }) := by
  have h0 : (candidatesFor doc.changes ct? pat? idx?).isEmpty = false := by
    cases hx : candidatesFor doc.changes ct? pat? idx? with
    | nil => exact absurd hx hne
    | cons a l => rfl
  simp [removeOp, h0, hsel]

theorem localSelection_nil_cands (idxs : List Nat) (c : Category) :
    localSelection [] idxs c = [] :=
  List.filterMap_eq_nil_iff.mpr fun _ _ => rfl

theorem removeOp_getCat (doc : PendingDoc) (ct? : Option Category) (pat? : Option String)
    (idx? : Option Nat) (decision : RemoveDecision) (nowIso : String) (idxs : List Nat)
    (hsel : chooseIndices decision (candidatesFor doc.changes ct? pat? idx?).length = some idxs)
    (c : Category) :
    getCat (removeOp doc ct? pat? idx? decision nowIso).2.changes c =
      (localSelection (candidatesFor doc.changes ct? pat? idx?) (sortDescNat idxs) c).foldl
        popList (getCat doc.changes c) := by
  by_cases hc : candidatesFor doc.changes ct? pat? idx? = []
  · rw [removeOp_no_candidates doc ct? pat? idx? decision nowIso hc]
    rw [hc] at hsel ⊢
    have h0 : idxs = [] := chooseIndices_zero decision idxs (by simpa using hsel)
    subst h0
    rfl
  · rw [removeOp_success doc ct? pat? idx? decision nowIso idxs hc hsel]
    exact getCat_applySorted (candidatesFor doc.changes ct? pat? idx?) (sortDescNat idxs)
      doc.changes c

/-- C8: when one `remove` invocation deletes several entries, the deletions in
any single category list are applied in descending index order
(`sorted(indices_to_remove, reverse=True)`, line 592), so the surviving list of
every category consists of exactly the entries at unselected local positions —
exactly the selected entries are removed, and no others, even when several come
from the same list.  `idxs` are the confirmed positions into the candidate
list; the hypothesis `idxs.Nodup` excludes a hand-typed duplicate position,
which the source also never de-duplicates. -/
theorem remove_deletes_exactly_selected (doc : PendingDoc) (ct? : Option Category)
    (pat? : Option String) (idx? : Option Nat) (decision : RemoveDecision) (nowIso : String)
    (idxs : List Nat)
    (hsel : chooseIndices decision (candidatesFor doc.changes ct? pat? idx?).length = some idxs)
    (hnd : idxs.Nodup) (c : Category) :
    getListD (removeOp doc ct? pat? idx? decision nowIso).2.changes c =
      keepNonSelected (localSelection (candidatesFor doc.changes ct? pat? idx?) idxs c) 0
        (getListD doc.changes c) := by
  have h1 := removeOp_getCat doc ct? pat? idx? decision nowIso idxs hsel c
  unfold getListD
  rw [h1, getD_foldl_popList]
  have hpair : (localSelection (candidatesFor doc.changes ct? pat? idx?)
      (sortDescNat idxs) c).Pairwise (· > ·) :=
    localSelection_pairwise _ _ _ (sortDescNat_pairwise_gt idxs hnd)
      (candidatesFor_pairwise doc.changes ct? pat? idx?)
  have hb : ∀ j ∈ localSelection (candidatesFor doc.changes ct? pat? idx?) (sortDescNat idxs) c,
      j < ((getCat doc.changes c).getD []).length :=
    fun j hj => localSelection_bounds doc.changes ct? pat? idx? _ c j hj
  rw [eraseIdxs_eq_keepNonSelected _ _ hpair hb]
  exact keepNonSelected_congr _ _
    (fun x => (localSelection_perm _ _ _ c (sortDescNat_perm idxs)).mem_iff) _ 0

/-- Witness for C8: removing everything from the fixture store with two `added`
entries and one `fixed` entry. -/
theorem remove_deletes_exactly_selected_witness :
    getListD (removeOp docGlobal none none none .all "now").2.changes .added =
      keepNonSelected (localSelection (candidatesFor docGlobal.changes none none none)
        [0, 1, 2] .added) 0 (getListD docGlobal.changes .added) :=
  remove_deletes_exactly_selected docGlobal none none none .all "now" [0, 1, 2]
    (by decide) (by decide) .added

/-- C9: a category whose list is drained by a `remove` (at least one entry
deleted from it and no entry surviving) has its key deleted from the `changes`
mapping (lines 597-598); `total_changes` is recomputed from the new mapping and
the document is saved with a fresh `last_modified` stamp (lines 601-606). -/
theorem remove_prunes_emptied_categories (doc : PendingDoc) (ct? : Option Category)
    (pat? : Option String) (idx? : Option Nat) (decision : RemoveDecision) (nowIso : String)
    (idxs : List Nat)
    (hsel : chooseIndices decision (candidatesFor doc.changes ct? pat? idx?).length = some idxs)
    (hnd : idxs.Nodup) (c : Category)
    (hne : localSelection (candidatesFor doc.changes ct? pat? idx?) idxs c ≠ [])
    (hempty : keepNonSelected (localSelection (candidatesFor doc.changes ct? pat? idx?) idxs c) 0
        (getListD doc.changes c) = []) :
    getCat (removeOp doc ct? pat? idx? decision nowIso).2.changes c = none ∧
      (removeOp doc ct? pat? idx? decision nowIso).2.total_changes =
        sumLens (removeOp doc ct? pat? idx? decision nowIso).2.changes ∧
      (removeOp doc ct? pat? idx? decision nowIso).2.last_modified = nowIso := by
  have hcne : candidatesFor doc.changes ct? pat? idx? ≠ [] := by
    intro hc
    rw [hc, localSelection_nil_cands] at hne
    exact hne rfl
  have hperm : List.Perm
      (localSelection (candidatesFor doc.changes ct? pat? idx?) (sortDescNat idxs) c)
      (localSelection (candidatesFor doc.changes ct? pat? idx?) idxs c) :=
    localSelection_perm _ _ _ c (sortDescNat_perm idxs)
  have hsne : localSelection (candidatesFor doc.changes ct? pat? idx?) (sortDescNat idxs) c ≠ [] := by
    intro hx
    rw [hx] at hperm
    exact hne hperm.symm.eq_nil
  have h1 := removeOp_getCat doc ct? pat? idx? decision nowIso idxs hsel c
  have hpair : (localSelection (candidatesFor doc.changes ct? pat? idx?)
      (sortDescNat idxs) c).Pairwise (· > ·) :=
    localSelection_pairwise _ _ _ (sortDescNat_pairwise_gt idxs hnd)
      (candidatesFor_pairwise doc.changes ct? pat? idx?)
  have hb : ∀ j ∈ localSelection (candidatesFor doc.changes ct? pat? idx?) (sortDescNat idxs) c,
      j < ((getCat doc.changes c).getD []).length :=
    fun j hj => localSelection_bounds doc.changes ct? pat? idx? _ c j hj
  have herase : eraseIdxs ((getCat doc.changes c).getD [])
      (localSelection (candidatesFor doc.changes ct? pat? idx?) (sortDescNat idxs) c) = [] := by
    rw [eraseIdxs_eq_keepNonSelected _ _ hpair hb]
    rw [keepNonSelected_congr _ _ (fun x => hperm.mem_iff) _ 0]
    exact hempty
  refine ⟨?_, ?_, ?_⟩
  · rw [h1, foldl_popList_ne_nil _ _ hsne, herase]
    rfl
  · rw [removeOp_success doc ct? pat? idx? decision nowIso idxs hcne hsel]
  · rw [removeOp_success doc ct? pat? idx? decision nowIso idxs hcne hsel]

/-- Witness for C9: removing the only entry of the `fixed` category deletes the
`fixed` key entirely. -/
theorem remove_prunes_emptied_categories_witness :
    getCat (removeOp docSingleFixed none none none .yes "T3").2.changes .fixed = none ∧
      (removeOp docSingleFixed none none none .yes "T3").2.total_changes =
        sumLens (removeOp docSingleFixed none none none .yes "T3").2.changes ∧
      (removeOp docSingleFixed none none none .yes "T3").2.last_modified = "T3" :=
  remove_prunes_emptied_categories docSingleFixed none none none .yes "T3" [0]
    (by decide) (by decide) .fixed (by decide) (by decide)

/-! ### C6: the count invariant -/

theorem applyOp_total (doc : PendingDoc) (h : doc.total_changes = sumLens doc.changes)
    (op : Op) : (applyOp doc op).total_changes = sumLens (applyOp doc op).changes := by
  cases op with
  | addChange c d a t n => rfl
  | removeChanges ct p i dec n =>
      by_cases hc : candidatesFor doc.changes ct p i = []
      · show (removeOp doc ct p i dec n).2.total_changes =
          sumLens (removeOp doc ct p i dec n).2.changes
        rw [removeOp_no_candidates doc ct p i dec n hc]
        exact h
      · cases hsel : chooseIndices dec (candidatesFor doc.changes ct p i).length with
        | none =>
            show (removeOp doc ct p i dec n).2.total_changes =
              sumLens (removeOp doc ct p i dec n).2.changes
            rw [removeOp_abort doc ct p i dec n hsel]
            exact h
        | some idxs =>
            show (removeOp doc ct p i dec n).2.total_changes =
              sumLens (removeOp doc ct p i dec n).2.changes
            rw [removeOp_success doc ct p i dec n idxs hc hsel]

/-- C6: starting from the freshly initialized empty pending document, after any
sequence of `add` / `remove` operations the stored `metadata.total_changes`
equals the sum of the lengths of the category lists of the `changes` mapping —
both `add` (lines 244-247) and `remove` (lines 600-603) recompute the counter
after mutating, and their non-mutating branches leave the document unchanged.
Since the operation sequence is arbitrary, this holds after every mutation. -/
theorem total_changes_invariant (projectName nowIso : String) (ops : List Op) :
    (ops.foldl applyOp (initUnreleased projectName nowIso)).total_changes =
      sumLens (ops.foldl applyOp (initUnreleased projectName nowIso)).changes := by
  suffices hgen : ∀ (doc : PendingDoc), doc.total_changes = sumLens doc.changes →
      (ops.foldl applyOp doc).total_changes = sumLens (ops.foldl applyOp doc).changes by
    exact hgen _ rfl
  induction ops with
  | nil => intro doc h; exact h
  | cons op ops ih =>
      intro doc h
      exact ih _ (applyOp_total doc h op)

/-! ### C3: release rejection on an empty pending store -/

/-- C3: a `release` against a pending store whose `total_changes` is zero
returns failure and touches none of the three artifacts: no release record is
written, the changelog lines are unchanged and the pending store is unchanged
(the guard on lines 357-360 returns before any write happens). -/
theorem release_rejects_empty_pending (s : SysState) (version notes today nowIso : String)
    (h : s.pending.total_changes = 0) :
    release s version notes today nowIso = (false, s) := by
  simp [release, h]

/-- Witness for C3 on a freshly initialized state. -/
theorem release_rejects_empty_pending_witness :
    release ⟨"proj", initUnreleased "proj" "T0", ["# Changelog", "## [Unreleased]"], []⟩
        "1.0.0" "" "2024-01-02" "T1" =
      (false, ⟨"proj", initUnreleased "proj" "T0", ["# Changelog", "## [Unreleased]"], []⟩) :=
  release_rejects_empty_pending _ "1.0.0" "" "2024-01-02" "T1" rfl

/-! ### C4: release snapshots the pending changes and resets the store -/

/-- C4: a `release` with at least one pending entry succeeds; the release
record written to disk (the new head of `releases`) carries the version, date,
timestamp, notes, the exact `changes` mapping of the pending store at release
time and the same `total_changes`; and afterwards the pending store is reset to
its empty initial state — all six category keys present with empty lists
(`initialChanges`), `total_changes = 0`, and fresh `created` / `last_modified`
stamps (lines 362-383). -/
theorem release_snapshots_and_resets (s : SysState) (version notes today nowIso : String)
    (h : s.pending.total_changes ≠ 0) :
    (release s version notes today nowIso).1 = true ∧
    (release s version notes today nowIso).2.pending =
      { project := s.projectName
        created := nowIso
        last_modified := nowIso
        changes := initialChanges
        total_changes := 0 } ∧
    (release s version notes today nowIso).2.releases =
      ("release_" ++ (if startsWithV version then (⟨version.data.drop 1⟩ : String)
          else version) ++ ".json",
        { version := version
          date := today
          timestamp := nowIso
          release_notes := notes
          changes := s.pending.changes
          total_changes := s.pending.total_changes }) :: s.releases ∧
    (release s version notes today nowIso).2.changelogLines =
      updateChangelogLines s.changelogLines version notes s.pending.changes today := by
  have h0 : (s.pending.total_changes == 0) = false := by simpa using h
  refine ⟨?_, ?_, ?_, ?_⟩ <;> simp [release, h0, initUnreleased]

/-- Witness for C4 at the fixture state with three pending entries. -/
theorem release_snapshots_and_resets_witness :
    (release stGlobal "1.2.0" "notes" "2024-02-01" "T2").1 = true ∧
    (release stGlobal "1.2.0" "notes" "2024-02-01" "T2").2.pending =
      { project := stGlobal.projectName
        created := "T2"
        last_modified := "T2"
        changes := initialChanges
        total_changes := 0 } ∧
    (release stGlobal "1.2.0" "notes" "2024-02-01" "T2").2.releases =
      ("release_" ++ (if startsWithV "1.2.0" then (⟨("1.2.0").data.drop 1⟩ : String)
          else "1.2.0") ++ ".json",
        { version := "1.2.0"
          date := "2024-02-01"
          timestamp := "T2"
          release_notes := "notes"
          changes := stGlobal.pending.changes
          total_changes := stGlobal.pending.total_changes }) :: stGlobal.releases ∧
    (release stGlobal "1.2.0" "notes" "2024-02-01" "T2").2.changelogLines =
      updateChangelogLines stGlobal.changelogLines "1.2.0" "notes" stGlobal.pending.changes
        "2024-02-01" :=
  release_snapshots_and_resets stGlobal "1.2.0" "notes" "2024-02-01" "T2" (by decide)

/-! ### C7: version normalization -/

/-- C7: the release-record filename is built from the version with one leading
`v` stripped (lines 346-351 and 375), while the release record and the
changelog block keep the version exactly as supplied: the block spliced into
the changelog starts with the heading for the original version string
(lines 404-406). -/
theorem release_version_normalization (s : SysState) (version notes today nowIso : String)
    (h : s.pending.total_changes ≠ 0) :
    (release s version notes today nowIso).2.releases.head?.map Prod.fst =
      some ("release_" ++ (if startsWithV version then (⟨version.data.drop 1⟩ : String)
        else version) ++ ".json") ∧
    (release s version notes today nowIso).2.releases.head?.map (fun r => r.2.version) =
      some version ∧
    (∃ restBlock : String,
      (release s version notes today nowIso).2.changelogLines =
        insertAfterUnreleased ("\n## [" ++ version ++ "] - " ++ today ++ "\n" ++ restBlock)
          s.changelogLines) := by
  have h0 : (s.pending.total_changes == 0) = false := by simpa using h
  refine ⟨?_, ?_, ?_⟩
  · simp [release, h0]
  · simp [release, h0]
  · refine ⟨(if notes == "" then "" else "\n" ++ notes ++ "\n") ++
      changesBlocks s.pending.changes categoryOrder, ?_⟩
    simp only [release, h0, Bool.false_eq_true, if_false, updateChangelogLines,
      mkReleaseBlock]
    rw [String.append_assoc]

/-- Witness for C7: releasing `v2.0.0` names the file with `2.0.0` while the
record keeps `v2.0.0`. -/
theorem release_version_normalization_witness :
    (release stGlobal "v2.0.0" "" "2024-02-01" "T2").2.releases.head?.map Prod.fst =
      some "release_2.0.0.json" ∧
    (release stGlobal "v2.0.0" "" "2024-02-01" "T2").2.releases.head?.map
      (fun r => r.2.version) = some "v2.0.0" := by
  have h := release_version_normalization stGlobal "v2.0.0" "" "2024-02-01" "T2" (by decide)
  refine ⟨?_, h.2.1⟩
  rw [h.1]
  decide

/-! ### C5: changelog insertion -/

/-- C5 counterexample: the claim requires an exact match against
`## [Unreleased]` and an append at the end when no line matches exactly, but on
a document whose marker line carries leading whitespace — no line is exactly
the marker — the code still splices the block right after that line
(`line.strip() == '## [Unreleased]'`, line 428), not at the end. -/
theorem insertAfterUnreleased_not_exact_match :
    (∀ l ∈ ["  ## [Unreleased]", "x"], l ≠ unreleasedMarker) ∧
    insertAfterUnreleased "B" ["  ## [Unreleased]", "x"] = ["  ## [Unreleased]", "B", "x"] ∧
    insertAfterUnreleased "B" ["  ## [Unreleased]", "x"] ≠ ["  ## [Unreleased]", "x", "B"] := by
  decide

/-- C5 (amended): the release block is inserted immediately after the first
line whose whitespace-stripped form equals `## [Unreleased]` (every earlier
line and the marker line itself are kept); when no line of the document strips
to the marker, the block is appended at the end instead. -/
theorem insertAfterUnreleased_spec (block : String) :
    (∀ lines : List String, (∀ l ∈ lines, pyStrip l ≠ unreleasedMarker) →
      insertAfterUnreleased block lines = lines ++ [block]) ∧
    (∀ (m : String) (pre post : List String), pyStrip m = unreleasedMarker →
      (∀ l ∈ pre, pyStrip l ≠ unreleasedMarker) →
      insertAfterUnreleased block (pre ++ m :: post) = pre ++ m :: block :: post) := by
  constructor
  · intro lines
    induction lines with
    | nil => intro _; rfl
    | cons l rest ih =>
        intro h
        have hl : pyStrip l ≠ unreleasedMarker := h l (List.mem_cons_self l rest)
        have hb : (pyStrip l == unreleasedMarker) = false := by simpa using hl
        simp only [insertAfterUnreleased, hb, Bool.false_eq_true, if_false]
        rw [ih (fun x hx => h x (List.mem_cons_of_mem l hx))]
        rfl
  · intro m pre post hm
    induction pre with
    | nil =>
        intro _
        have hb : (pyStrip m == unreleasedMarker) = true := by simpa using hm
        simp [insertAfterUnreleased, hb]
    | cons l pre ih =>
        intro h
        have hl : pyStrip l ≠ unreleasedMarker := h l (List.mem_cons_self l pre)
        have hb : (pyStrip l == unreleasedMarker) = false := by simpa using hl
        simp only [List.cons_append, insertAfterUnreleased, hb, Bool.false_eq_true, if_false,
          List.append_eq]
        rw [ih (fun x hx => h x (List.mem_cons_of_mem l hx))]

/-- Witness for C5 (amended): appending when no marker exists, and splicing
right below the marker of a standard document. -/
theorem insertAfterUnreleased_spec_witness :
    insertAfterUnreleased "NEW" ["a", "b"] = ["a", "b", "NEW"] ∧
    insertAfterUnreleased "NEW" (["# T"] ++ "## [Unreleased]" :: ["old"]) =
      ["# T"] ++ "## [Unreleased]" :: "NEW" :: ["old"] :=
  ⟨(insertAfterUnreleased_spec "NEW").1 ["a", "b"] (by decide),
   (insertAfterUnreleased_spec "NEW").2 "## [Unreleased]" ["# T"] ["old"] (by decide)
     (by decide)⟩

/-! ### C2: id generation -/

/-- C2 counterexample: two distinct instants inside the same second (even the
same millisecond) receive the same id, because `_generate_id` truncates the
microsecond field to milliseconds (`[:-3]`, line 260). -/
theorem generateId_same_second_collision :
    generateId ⟨2024, 1, 2, 3, 4, 5, 0⟩ = generateId ⟨2024, 1, 2, 3, 4, 5, 999⟩ ∧
    (⟨2024, 1, 2, 3, 4, 5, 0⟩ : PyDateTime) ≠ ⟨2024, 1, 2, 3, 4, 5, 999⟩ := by
  decide

theorem digitChar_inj_lt : ∀ x < 10, ∀ y < 10, Nat.digitChar x = Nat.digitChar y → x = y := by
  decide

theorem pad3_inj (a b : Nat) (ha : a < 1000) (hb : b < 1000) (h : pad3 a = pad3 b) : a = b := by
  simp only [pad3, List.cons.injEq, and_true] at h
  obtain ⟨h1, h2, h3⟩ := h
  have e1 := digitChar_inj_lt (a / 100) (by omega) (b / 100) (by omega) h1
  have e2 := digitChar_inj_lt (a / 10 % 10) (by omega) (b / 10 % 10) (by omega) h2
  have e3 := digitChar_inj_lt (a % 10) (by omega) (b % 10) (by omega) h3
  omega

/-- C2 (amended): within one second the generated ids are distinct exactly when
the two instants fall in different milliseconds — `_generate_id` resolves to
the millisecond, so same-second adds in different milliseconds always get
distinct ids, while two adds within the very same millisecond collide (see the
counterexample). -/
theorem generateId_distinct_millis (t1 t2 : PyDateTime)
    (hy : t1.year = t2.year) (hmo : t1.month = t2.month) (hd : t1.day = t2.day)
    (hh : t1.hour = t2.hour) (hmi : t1.minute = t2.minute) (hs : t1.second = t2.second)
    (hu1 : t1.usec < 1000000) (hu2 : t2.usec < 1000000)
    (hms : t1.usec / 1000 ≠ t2.usec / 1000) :
    generateId t1 ≠ generateId t2 := by
  intro h
  have hdata : "chg_".data ++ pad4 t1.year ++ pad2 t1.month ++ pad2 t1.day ++
      pad2 t1.hour ++ pad2 t1.minute ++ pad2 t1.second ++ pad3 (t1.usec / 1000) =
      "chg_".data ++ pad4 t2.year ++ pad2 t2.month ++ pad2 t2.day ++
      pad2 t2.hour ++ pad2 t2.minute ++ pad2 t2.second ++ pad3 (t2.usec / 1000) :=
    congrArg String.data h
  rw [hy, hmo, hd, hh, hmi, hs] at hdata
  have hp3 : pad3 (t1.usec / 1000) = pad3 (t2.usec / 1000) :=
    List.append_cancel_left hdata
  exact hms (pad3_inj _ _ (by omega) (by omega) hp3)

/-- Witness for C2 (amended): same second, milliseconds 0 and 1. -/
theorem generateId_distinct_millis_witness :
    generateId ⟨2024, 1, 2, 3, 4, 5, 0⟩ ≠ generateId ⟨2024, 1, 2, 3, 4, 5, 1000⟩ :=
  generateId_distinct_millis ⟨2024, 1, 2, 3, 4, 5, 0⟩ ⟨2024, 1, 2, 3, 4, 5, 1000⟩
    rfl rfl rfl rfl rfl rfl (by decide) (by decide) (by decide)

/-! ### C1: global-index removal -/

/-- C1 (code bug): with pending entries `added = [A, B]` and `fixed = [C]` the
specification's global ordering puts `C` at position 3, and the code's own
comments intend a global index (lines 527-529), but the index test also
requires the entry's local position to equal `index - 1` (line 534), so
`remove --index 3` matches no candidate at all and the removal fails with "no
match" instead of selecting `C`.  Index 1 does match exactly `A`, as both tests
coincide there. -/
theorem remove_global_index_bug :
    candidatesFor chGlobal none none (some 3) = [] ∧
    removeOp docGlobal none none (some 3) .yes "now" = (false, docGlobal) ∧
    candidatesFor chGlobal none none (some 1) = [⟨.added, 0, entryA⟩] := by
  decide

/-! ### C10: project-section configuration updates are unvalidated -/

theorem splitAtFirstDot_no_dot :
    ∀ (l : List Char), (∀ c ∈ l, c ≠ '.') → splitAtFirstDot l = none := by
  intro l
  induction l with
  | nil => intro _; rfl
  | cons ch rest ih =>
      intro h
      have hch : (ch == '.') = false := by
        simpa using h ch (List.mem_cons_self ch rest)
      simp only [splitAtFirstDot, hch, Bool.false_eq_true, if_false]
      rw [ih (fun c hc => h c (List.mem_cons_of_mem ch hc))]

theorem splitAtFirstDot_found :
    ∀ (pre rest : List Char), (∀ c ∈ pre, c ≠ '.') →
      splitAtFirstDot (pre ++ '.' :: rest) = some (pre, rest) := by
  intro pre
  induction pre with
  | nil => intro rest _; simp [splitAtFirstDot]
  | cons ch pre ih =>
      intro rest h
      have hch : (ch == '.') = false := by
        simpa using h ch (List.mem_cons_self ch pre)
      simp only [List.cons_append, splitAtFirstDot, hch, Bool.false_eq_true, if_false,
        List.append_eq]
      rw [ih rest (fun c hc => h c (List.mem_cons_of_mem ch hc))]

theorem splitFirstDot_project (sub : String) :
    splitFirstDot ("project." ++ sub) = some ("project", sub) := by
  have hdata : ("project." ++ sub).data = "project".data ++ '.' :: sub.data := by
    rw [String.data_append]
    rfl
  simp only [splitFirstDot, hdata,
    splitAtFirstDot_found "project".data sub.data (by decide)]

theorem splitFirstDot_paths (sub : String) :
    splitFirstDot ("paths." ++ sub) = some ("paths", sub) := by
  have hdata : ("paths." ++ sub).data = "paths".data ++ '.' :: sub.data := by
    rw [String.data_append]
    rfl
  simp only [splitFirstDot, hdata,
    splitAtFirstDot_found "paths".data sub.data (by decide)]

theorem splitFirstDot_settings (sub : String) :
    splitFirstDot ("settings." ++ sub) = some ("settings", sub) := by
  have hdata : ("settings." ++ sub).data = "settings".data ++ '.' :: sub.data := by
    rw [String.data_append]
    rfl
  simp only [splitFirstDot, hdata,
    splitAtFirstDot_found "settings".data sub.data (by decide)]

theorem splitFirstDot_no_dot (key : String) (h : ∀ c ∈ key.data, c ≠ '.') :
    splitFirstDot key = none := by
  simp only [splitFirstDot, splitAtFirstDot_no_dot key.data h]

theorem lookupAssoc_setAssoc {α : Type} :
    ∀ (l : List (String × α)) (k : String) (v : α),
      lookupAssoc (setAssoc l k v) k = some v := by
  intro l
  induction l with
  | nil => intro k v; simp [setAssoc, lookupAssoc]
  | cons p rest ih =>
      intro k v
      obtain ⟨k', v'⟩ := p
      by_cases hk : (k' == k) = true
      · simp [setAssoc, lookupAssoc, hk]
      · simp only [setAssoc, lookupAssoc, hk, Bool.false_eq_true, if_false]
        exact ih k v

/-- C10: a `config update` whose key addresses the `project` section — a
`project.<subkey>` key, or any key with no dot at all — accepts every subkey
without validation: the raw string value is stored (overwriting or creating the
field) and the updated record is the one saved, with no unknown-key error
(lines 659-661); by contrast `paths` and `settings` updates reject a subkey not
already present in their section (lines 649-658 with lines 89-103). -/
theorem configUpdate_project_unvalidated :
    (∀ (cfg : Config) (sub value : String),
      configUpdate cfg ("project." ++ sub) value =
        (true, { cfg with project := setAssoc cfg.project sub value }) ∧
      lookupAssoc (setAssoc cfg.project sub value) sub = some value) ∧
    (∀ (cfg : Config) (key value : String), (∀ c ∈ key.data, c ≠ '.') →
      configUpdate cfg key value =
        (true, { cfg with project := setAssoc cfg.project key value })) ∧
    (∀ (cfg : Config) (sub value : String), lookupAssoc cfg.paths sub = none →
      configUpdate cfg ("paths." ++ sub) value = (false, cfg)) ∧
    (∀ (cfg : Config) (sub value : String), lookupAssoc cfg.settings sub = none →
      configUpdate cfg ("settings." ++ sub) value = (false, cfg)) := by
  refine ⟨?_, ?_, ?_, ?_⟩
  · intro cfg sub value
    refine ⟨?_, lookupAssoc_setAssoc cfg.project sub value⟩
    simp [configUpdate, splitFirstDot_project sub]
  · intro cfg key value h
    simp [configUpdate, splitFirstDot_no_dot key h]
  · intro cfg sub value h
    simp [configUpdate, splitFirstDot_paths sub, updatePath, h]
  · intro cfg sub value h
    simp [configUpdate, splitFirstDot_settings sub, updateSetting, h]

/-- Witness for C10: an unknown `project` subkey is accepted and stored, while
an unknown `paths` subkey is rejected without mutation. -/
theorem configUpdate_project_unvalidated_witness :
    (configUpdate cfgDefault ("project." ++ "nickname") "zed" =
        (true, { cfgDefault with project := setAssoc cfgDefault.project "nickname" "zed" }) ∧
      lookupAssoc (setAssoc cfgDefault.project "nickname" "zed") "nickname" = some "zed") ∧
    configUpdate cfgDefault ("paths." ++ "bogus") "x" = (false, cfgDefault) ∧
    configUpdate cfgDefault "license" "GPL" =
      (true, { cfgDefault with project := setAssoc cfgDefault.project "license" "GPL" }) :=
  ⟨configUpdate_project_unvalidated.1 cfgDefault "nickname" "zed",
   configUpdate_project_unvalidated.2.2.1 cfgDefault "bogus" "x" (by decide),
   configUpdate_project_unvalidated.2.1 cfgDefault "license" "GPL" (by decide)⟩

end Chlog
